import Mathlib

/-!
Verification development for the collaborative-filtering core of HyPRec
(`lib/collaborative_filtering.py`).  The Python code is shallowly embedded:

* dense numpy matrices become `Matrix (Fin m) (Fin n) ℚ` (floats are modelled
  as exact rationals);
* numpy/Python randomness (`numpy.random.choice`, `numpy.random.shuffle`) is
  modelled by explicit oracle arguments: a *draw* function selecting indices
  with replacement, and *shuffle* functions whose outputs are (in theorems)
  assumed to be permutations of their inputs;
* Python `int(...)` truncation, Python 3 `round(...)` (banker's rounding) and
  Python list slicing (with clamping and negative indices) are embedded
  explicitly as `pyInt`, `pyRound`, `pySlice`;
* `numpy.linalg.solve(A, b)` is embedded as `alsSolve`, multiplication of `b`
  by the adjugate-based inverse of `A`; the theorems about it carry the
  nonsingularity hypothesis under which `solve` returns (rather than raising
  `LinAlgError`);
* fallible code (`KeyError`, `numpy.random.choice` errors) returns `Option`.
-/

/-- Python `int(q)`: truncation toward zero. -/
def pyInt (q : ℚ) : ℤ :=
  if 0 ≤ q then ⌊q⌋ else -⌊-q⌋

/-- Python 3 `round(q)` (no digits argument): round half to even. -/
def pyRound (q : ℚ) : ℤ :=
  if q - (⌊q⌋ : ℚ) = 1 / 2 then (if ⌊q⌋ % 2 = 0 then ⌊q⌋ else ⌊q⌋ + 1)
  else round q

/-- Normalization of a Python slice endpoint for a sequence of length `L`:
negative indices count from the end, and endpoints are clamped to `[0, L]`. -/
def pySliceStart (L : ℕ) (a : ℤ) : ℕ :=
  if a < 0 then ((L : ℤ) + a).toNat else min a.toNat L

/-- Python slice `l[a:b]` (step 1), with clamping and negative indices. -/
def pySlice {α : Type} (l : List α) (a b : ℤ) : List α :=
  (l.drop (pySliceStart l.length a)).take (pySliceStart l.length b - pySliceStart l.length a)

/-- Indices of the non-zero entries of a ratings row, in ascending order:
`ratings[user, :].nonzero()[0]`. -/
def nonzeroIndices {n : ℕ} (row : Fin n → ℚ) : List (Fin n) :=
  (List.finRange n).filter (fun j => decide (row j ≠ 0))

/-- Indices of the zero entries of a ratings row, in ascending order.  In the
source this is `item_indices[mask]` where `mask` is `True` exactly off the
non-zero indices. -/
def nonRatedIndices {n : ℕ} (row : Fin n → ℚ) : List (Fin n) :=
  (List.finRange n).filter (fun j => decide (row j = 0))

/-- `numpy.random.choice(pop, size=size)`: `size` draws *with replacement*
from `pop`.  The draws are supplied by the oracle `draw`; a raised
`ValueError` (negative size, or empty population with positive size) is
`none`. -/
def npChoice {α : Type} (pop : List α) (size : ℤ) (draw : ℕ → ℕ) : Option (List α) :=
  if size < 0 then none
  else if hp : pop.length = 0 then (if size = 0 then some [] else none)
  else some ((List.range size.toNat).map
    (fun t => pop.get ⟨draw t % pop.length, Nat.mod_lt _ (Nat.pos_of_ne_zero hp)⟩))

/-- The state produced by `naive_split`: the train matrix, the test matrix and
the per-user selected test indices (`self.test_indices`). -/
structure SplitResult (m n : ℕ) where
  train : Matrix (Fin m) (Fin n) ℚ
  test : Matrix (Fin m) (Fin n) ℚ
  test_indices : Fin m → List (Fin n)

/-- One iteration of the user loop of `naive_split`: draw
`int(test_percentage * len(non_zeros))` indices from the non-zero indices of
the user's row, zero them in the train matrix and copy them into the test
matrix. -/
def nsStep {m n : ℕ} (ratings : Matrix (Fin m) (Fin n) ℚ) (test_percentage : ℚ)
    (draw : Fin m → ℕ → ℕ) (acc : SplitResult m n) (user : Fin m) : Option (SplitResult m n) := do
  let non_zeros := nonzeroIndices (ratings user)
  let test_ratings ← npChoice non_zeros (pyInt (test_percentage * (non_zeros.length : ℚ))) (draw user)
  some { train := acc.train.updateRow user (fun j => if j ∈ test_ratings then 0 else acc.train user j)
         test := acc.test.updateRow user (fun j => if j ∈ test_ratings then ratings user j else acc.test user j)
         test_indices := Function.update acc.test_indices user test_ratings }

/-- `CollaborativeFiltering.naive_split` (with the default `docs=False`):
`test` starts as zeros, `train` as a copy of `ratings`, then every user row is
split by `nsStep`. -/
def naive_split {m n : ℕ} (ratings : Matrix (Fin m) (Fin n) ℚ) (test_percentage : ℚ)
    (draw : Fin m → ℕ → ℕ) : Option (SplitResult m n) :=
  (List.finRange m).foldlM (nsStep ratings test_percentage draw)
    ⟨ratings, fun _ _ => 0, fun _ => []⟩

/-- The selection `naive_split` stores in `self.test_indices[str(user)]`
(defaulting to `[]`, which never occurs on a successful run). -/
def nsSelection {m n : ℕ} (ratings : Matrix (Fin m) (Fin n) ℚ) (test_percentage : ℚ)
    (draw : Fin m → ℕ → ℕ) (user : Fin m) : List (Fin n) :=
  (npChoice (nonzeroIndices (ratings user))
    (pyInt (test_percentage * ((nonzeroIndices (ratings user)).length : ℚ))) (draw user)).getD []

/-- `size_of_test` in `get_kfold_indices`: `round((1/k_folds) * len(rated))`. -/
def kfS (k : ℕ) {n : ℕ} (rated : List (Fin n)) : ℤ :=
  pyRound ((1 / (k : ℚ)) * (rated.length : ℚ))

/-- Loop state of the per-user fold loop of `get_kfold_indices`: the running
`counter`, the previous entry of `num_to_add`, and the test sets built so
far. -/
structure KfoldAcc (n : ℕ) where
  counter : ℤ
  prevAdd : ℤ
  tests : List (List (Fin n))

/-- One iteration (`index`) of the fold loop of `get_kfold_indices` for a
fixed user: slice the next chunk of shuffled rated indices (the last fold
takes the remainder), compute `num_to_add = int(n_items/k_folds - len(chunk))`
and append a slice of the shuffled unrated indices to the fold's test set. -/
def kfoldUserStep (N k : ℕ) {n : ℕ} (rated nonRated : List (Fin n)) (s : ℤ)
    (acc : KfoldAcc n) (index : ℕ) : KfoldAcc n :=
  let chunk := if index = k - 1 then pySlice rated acc.counter (rated.length : ℤ)
               else pySlice rated acc.counter (acc.counter + s)
  let counter := acc.counter + s
  let cur : ℤ := pyInt ((N : ℚ) / (k : ℚ) - (chunk.length : ℚ))
  let addition :=
    if 0 < index ∧ cur ≠ acc.prevAdd then
      pySlice nonRated ((index : ℤ) * acc.prevAdd) (acc.prevAdd * (index : ℤ) + cur)
    else
      pySlice nonRated ((index : ℤ) * cur) (cur * ((index : ℤ) + 1))
  ⟨counter, cur, acc.tests ++ [chunk ++ addition]⟩

/-- The `k_folds` test index sets `get_kfold_indices` builds for one user,
given that user's already-shuffled rated and unrated index lists.  `N` is
`ratings.shape[1]` (the number of items). -/
def kfoldUserTests (N k : ℕ) {n : ℕ} (rated nonRated : List (Fin n)) : List (List (Fin n)) :=
  ((List.range k).foldl (kfoldUserStep N k rated nonRated (kfS k rated)) ⟨0, 0, []⟩).tests

/-- `CollaborativeFiltering.get_kfold_indices`, test-set part: the flattened
(user-major, fold-minor) list of per-(user, fold) test index arrays.  The
in-place `numpy.random.shuffle` calls are modelled by the oracle arguments
`shuffleRated` and `shuffleNonRated`; the complementary `train_indices` lists
are not needed by any claim and are not modelled. -/
def get_kfold_indices {m n : ℕ} (ratings : Matrix (Fin m) (Fin n) ℚ) (k : ℕ)
    (shuffleRated shuffleNonRated : Fin m → List (Fin n) → List (Fin n)) : List (List (Fin n)) :=
  (List.finRange m).flatMap (fun user =>
    kfoldUserTests n k (shuffleRated user (nonzeroIndices (ratings user)))
      (shuffleNonRated user (nonRatedIndices (ratings user))))

/-- Closed form of the chunk of shuffled rated indices given to fold `i`
(`test_ratings[index]` before padding): the loop counter at fold `i` equals
`i * size_of_test`. -/
def kfChunk (k : ℕ) {n : ℕ} (rated : List (Fin n)) (s : ℤ) (i : ℕ) : List (Fin n) :=
  if i = k - 1 then pySlice rated ((i : ℤ) * s) (rated.length : ℤ)
  else pySlice rated ((i : ℤ) * s) ((i : ℤ) * s + s)

/-- Closed form of `num_to_add[i]`. -/
def kfCur (N k : ℕ) {n : ℕ} (rated : List (Fin n)) (s : ℤ) (i : ℕ) : ℤ :=
  pyInt ((N : ℚ) / (k : ℚ) - ((kfChunk k rated s i).length : ℚ))

/-- Closed form of the unrated padding appended to fold `i`'s test set. -/
def kfAddition (N k : ℕ) {n : ℕ} (rated nonRated : List (Fin n)) (s : ℤ) (i : ℕ) : List (Fin n) :=
  if 0 < i ∧ kfCur N k rated s i ≠ kfCur N k rated s (i - 1) then
    pySlice nonRated ((i : ℤ) * kfCur N k rated s (i - 1))
      (kfCur N k rated s (i - 1) * (i : ℤ) + kfCur N k rated s i)
  else
    pySlice nonRated ((i : ℤ) * kfCur N k rated s i) (kfCur N k rated s i * ((i : ℤ) + 1))

/-- Start index (before clamping) of the unrated slice appended to fold `i`. -/
def kfAddStart (N k : ℕ) {n : ℕ} (rated : List (Fin n)) (s : ℤ) (i : ℕ) : ℤ :=
  if 0 < i ∧ kfCur N k rated s i ≠ kfCur N k rated s (i - 1) then
    (i : ℤ) * kfCur N k rated s (i - 1)
  else (i : ℤ) * kfCur N k rated s i

/-- Stop index (before clamping) of the unrated slice appended to fold `i`. -/
def kfAddStop (N k : ℕ) {n : ℕ} (rated : List (Fin n)) (s : ℤ) (i : ℕ) : ℤ :=
  kfAddStart N k rated s i + kfCur N k rated s i

/-- Computable inverse of a square rational matrix (adjugate formula); equals
Mathlib's `A⁻¹` (see `matInv_eq_inv`).  `numpy.linalg.solve` raises on a
singular input; all results about `alsSolve` assume `IsUnit A.det`, the case
in which `solve` returns. -/
def matInv {k : ℕ} (A : Matrix (Fin k) (Fin k) ℚ) : Matrix (Fin k) (Fin k) ℚ :=
  A.det⁻¹ • A.adjugate

/-- `numpy.linalg.solve(A, b)` for a nonsingular `A`. -/
def alsSolve {k : ℕ} (A : Matrix (Fin k) (Fin k) ℚ) (b : Fin k → ℚ) : Fin k → ℚ :=
  (matInv A).mulVec b

/-- The `type='user'` branch of `CollaborativeFiltering.als_step`: precompute
`YTY = fixed_vecsᵗ·fixed_vecs` and `lambdaI`, then overwrite every row `u` of
`latent_vectors` with `solve(YTY + lambdaI, ratings[u, :].dot(fixed_vecs))`. -/
def als_step_user {m n k : ℕ} (latent_vectors : Matrix (Fin m) (Fin k) ℚ)
    (fixed_vecs : Matrix (Fin n) (Fin k) ℚ) (ratings : Matrix (Fin m) (Fin n) ℚ)
    (_lambda : ℚ) : Matrix (Fin m) (Fin k) ℚ :=
  let YTY := fixed_vecs.transpose * fixed_vecs
  let lambdaI := _lambda • (1 : Matrix (Fin k) (Fin k) ℚ)
  (List.finRange m).foldl
    (fun lv u => lv.updateRow u (alsSolve (YTY + lambdaI) (Matrix.vecMul (ratings u) fixed_vecs)))
    latent_vectors

/-- The `type='item'` branch of `CollaborativeFiltering.als_step`: as the user
branch, but row `i` is overwritten with
`solve(XTX + lambdaI, ratings[:, i].T.dot(fixed_vecs))`. -/
def als_step_item {m n k : ℕ} (latent_vectors : Matrix (Fin n) (Fin k) ℚ)
    (fixed_vecs : Matrix (Fin m) (Fin k) ℚ) (ratings : Matrix (Fin m) (Fin n) ℚ)
    (_lambda : ℚ) : Matrix (Fin n) (Fin k) ℚ :=
  let XTX := fixed_vecs.transpose * fixed_vecs
  let lambdaI := _lambda • (1 : Matrix (Fin k) (Fin k) ℚ)
  (List.finRange n).foldl
    (fun lv i => lv.updateRow i (alsSolve (XTX + lambdaI) (Matrix.vecMul (fun u => ratings u i) fixed_vecs)))
    latent_vectors

/-- `CollaborativeFiltering.partial_train` (the source name begins with a
Lean keyword): iterate `for ctr in range(1, n_iter + 1)`, each time replacing
`user_vecs` by a user `als_step` against the current `item_vecs`, then
`item_vecs` by an item `als_step` against the just-updated `user_vecs`. -/
def als_train_loop {m n k : ℕ} (train_data : Matrix (Fin m) (Fin n) ℚ) (_lambda : ℚ)
    (n_iter : ℕ) (user_vecs : Matrix (Fin m) (Fin k) ℚ) (item_vecs : Matrix (Fin n) (Fin k) ℚ) :
    Matrix (Fin m) (Fin k) ℚ × Matrix (Fin n) (Fin k) ℚ :=
  (List.range' 1 n_iter).foldl
    (fun p _ctr =>
      let u := als_step_user p.1 p.2 train_data _lambda
      let v := als_step_item p.2 u train_data _lambda
      (u, v))
    (user_vecs, item_vecs)

/-- One alternating round as the spec describes it: update the user factors
with the item factors held fixed, then update the item factors with the
just-updated user factors held fixed. -/
def alsAlternatingRound {m n k : ℕ} (train_data : Matrix (Fin m) (Fin n) ℚ) (_lambda : ℚ)
    (p : Matrix (Fin m) (Fin k) ℚ × Matrix (Fin n) (Fin k) ℚ) :
    Matrix (Fin m) (Fin k) ℚ × Matrix (Fin n) (Fin k) ℚ :=
  let u := als_step_user p.1 p.2 train_data _lambda
  (u, als_step_item p.2 u train_data _lambda)

/-- `CollaborativeFiltering.get_predictions`: `user_vecs.dot(item_vecs.T)`. -/
def get_predictions {m n k : ℕ} (user_vecs : Matrix (Fin m) (Fin k) ℚ)
    (item_vecs : Matrix (Fin n) (Fin k) ℚ) : Matrix (Fin m) (Fin n) ℚ :=
  user_vecs * item_vecs.transpose

/-- `CollaborativeFiltering.predict`:
`user_vecs[user, :].dot(item_vecs[item, :].T)` (a numpy 1-D dot product). -/
def predict {m n k : ℕ} (user_vecs : Matrix (Fin m) (Fin k) ℚ)
    (item_vecs : Matrix (Fin n) (Fin k) ℚ) (user : Fin m) (item : Fin n) : ℚ :=
  ∑ f, user_vecs user f * item_vecs item f

/-- Which of its three array arguments a call to `als_step` hands back. -/
inductive AlsReturnedObject : Type
  | latent_vectors : AlsReturnedObject
  | fixed_vecs : AlsReturnedObject
  | ratings : AlsReturnedObject
deriving DecidableEq

/-- The mutable environment of a call to `als_step`: the three numpy arrays
the call can reach. -/
@[ext]
structure AlsVars (p q mm nn k : ℕ) where
  latent_vectors : Matrix (Fin p) (Fin k) ℚ
  fixed_vecs : Matrix (Fin q) (Fin k) ℚ
  ratings : Matrix (Fin mm) (Fin nn) ℚ

/-- State-passing embedding of the `type='user'` branch of `als_step`: the row
loop reads `fixed_vecs` and `ratings` from the state at every iteration and
writes one row of `latent_vectors` per iteration; the function returns the
final state together with which object the `return latent_vectors` statement
hands back. -/
def als_step_user_state {m n k : ℕ} (s : AlsVars m n m n k) (_lambda : ℚ) :
    AlsVars m n m n k × AlsReturnedObject :=
  let YTY := s.fixed_vecs.transpose * s.fixed_vecs
  let lambdaI := _lambda • (1 : Matrix (Fin k) (Fin k) ℚ)
  ((List.finRange m).foldl
    (fun st u =>
      let row := alsSolve (YTY + lambdaI) (Matrix.vecMul (st.ratings u) st.fixed_vecs)
      { st with latent_vectors := st.latent_vectors.updateRow u row })
    s, AlsReturnedObject.latent_vectors)

/-- State-passing embedding of the `type='item'` branch of `als_step`. -/
def als_step_item_state {m n k : ℕ} (s : AlsVars n m m n k) (_lambda : ℚ) :
    AlsVars n m m n k × AlsReturnedObject :=
  let XTX := s.fixed_vecs.transpose * s.fixed_vecs
  let lambdaI := _lambda • (1 : Matrix (Fin k) (Fin k) ℚ)
  ((List.finRange n).foldl
    (fun st i =>
      let row := alsSolve (XTX + lambdaI) (Matrix.vecMul (fun u => st.ratings u i) st.fixed_vecs)
      { st with latent_vectors := st.latent_vectors.updateRow i row })
    s, AlsReturnedObject.latent_vectors)

/-- Result of `set_options`: `n_iter` is `none` when the `n_iterations` key is
absent (the attribute is then simply never assigned); `k_folds` falls back to
5 only when both the key and the previously stored value are missing. -/
structure CFOptions where
  n_iter : Option ℚ
  k_folds : ℚ
deriving DecidableEq

/-- `CollaborativeFiltering.set_options`.  `k_folds0` is the value of
`self.k_folds` before the call (`None` at construction). -/
def set_options (options : List (String × ℚ)) (k_folds0 : Option ℚ) : CFOptions :=
  { n_iter := options.lookup "n_iterations"
    k_folds :=
      match options.lookup "k_folds", k_folds0 with
      | some kv, _ => kv
      | none, some k0 => k0
      | none, none => 5 }

/-- `CollaborativeFiltering.set_hyperparameters`: reads
`hyperparameters['n_factors']` and then `hyperparameters['_lambda']`; a
missing key is a `KeyError` (`none`). -/
def set_hyperparameters (hyperparameters : List (String × ℚ)) : Option (ℚ × ℚ) := do
  let nf ← hyperparameters.lookup "n_factors"
  let lam ← hyperparameters.lookup "_lambda"
  some (nf, lam)

/-- The configuration a successfully constructed solver holds. -/
structure CFConfig where
  n_factors : ℚ
  _lambda : ℚ
  opts : CFOptions
deriving DecidableEq

/-- The configuration phase of `CollaborativeFiltering.__init__`:
`self.k_folds = None`, then `set_hyperparameters`, then `set_options`.  No
training happens at construction. -/
def cf_construct (hyperparameters options : List (String × ℚ)) : Option CFConfig := do
  let hp ← set_hyperparameters hyperparameters
  some { n_factors := hp.1, _lambda := hp.2, opts := set_options options none }

/-! ### Concrete instances used by witnesses and counterexamples -/

/-- A 1 × 3 all-ones ratings matrix. -/
def RW : Matrix (Fin 1) (Fin 3) ℚ := fun _ _ => 1

/-- A 1 × 8 ratings matrix whose single user rated items 0, 1, 2. -/
def R6 : Matrix (Fin 1) (Fin 8) ℚ := fun _ j => if (j : ℕ) < 3 then 1 else 0

/-- A 1 × 4 ratings matrix whose single user rated items 0 and 1. -/
def R4 : Matrix (Fin 1) (Fin 4) ℚ := fun _ j => if (j : ℕ) < 2 then 1 else 0

/-- A 1 × 2 all-zero ratings matrix (a user with no rated items). -/
def RZ : Matrix (Fin 1) (Fin 2) ℚ := fun _ _ => 0

/-- The identity shuffle oracle (a permutation of its input). -/
def idShuffle {m n : ℕ} : Fin m → List (Fin n) → List (Fin n) := fun _ l => l

/-- The constant-zero draw oracle. -/
def drawW {m : ℕ} : Fin m → ℕ → ℕ := fun _ _ => 0

/-- Concrete 1 × 1 factor matrices for the ALS witness. -/
def latentW1 : Matrix (Fin 1) (Fin 1) ℚ := fun _ _ => 0

/-- Concrete 1 × 1 fixed-factor matrix for the ALS witness. -/
def fixedW1 : Matrix (Fin 1) (Fin 1) ℚ := fun _ _ => 1

/-- Concrete 1 × 1 ratings matrix for the ALS witness. -/
def ratingsW1 : Matrix (Fin 1) (Fin 1) ℚ := fun _ _ => 3

unseal Rat.mul Rat.inv Rat.add Rat.sub in
/-- The split `naive_split` produces on `RW` with fraction `1/5` and the
constant-zero draw oracle. -/
def resW3 : SplitResult 1 3 := (naive_split RW (1/5) drawW).get (by decide)

unseal Rat.mul Rat.inv Rat.add Rat.sub in
/-- The split `naive_split` produces on `RW` with fraction `2/3` and the
constant-zero draw oracle. -/
def resW7 : SplitResult 1 3 := (naive_split RW (2/3) drawW).get (by decide)

/-! ### Basic lemmas about the ALS embedding -/

theorem matInv_eq_inv {k : ℕ} (A : Matrix (Fin k) (Fin k) ℚ) : matInv A = A⁻¹ := by
  rw [Matrix.inv_def, Ring.inverse_eq_inv']
  rfl

/-- For a nonsingular `A`, `alsSolve A b` is the unique solution of
`A.mulVec x = b`. -/
theorem alsSolve_unique {k : ℕ} (A : Matrix (Fin k) (Fin k) ℚ) (hA : IsUnit A.det)
    (b x : Fin k → ℚ) : A.mulVec x = b ↔ x = alsSolve A b := by
  unfold alsSolve
  rw [matInv_eq_inv]
  constructor
  · intro h
    calc x = Matrix.mulVec 1 x := (Matrix.one_mulVec x).symm
    _ = Matrix.mulVec (A⁻¹ * A) x := by rw [Matrix.nonsing_inv_mul A hA]
    _ = Matrix.mulVec A⁻¹ (Matrix.mulVec A x) := (Matrix.mulVec_mulVec x A⁻¹ A).symm
    _ = Matrix.mulVec A⁻¹ b := by rw [h]
  · intro h
    subst h
    calc Matrix.mulVec A (Matrix.mulVec A⁻¹ b) = Matrix.mulVec (A * A⁻¹) b :=
      Matrix.mulVec_mulVec b A A⁻¹
    _ = Matrix.mulVec 1 b := by rw [Matrix.mul_nonsing_inv A hA]
    _ = b := Matrix.one_mulVec b

theorem foldl_updateRow_of_not_mem {m k : ℕ} (f : Fin m → Fin k → ℚ) :
    ∀ (l : List (Fin m)) (A : Matrix (Fin m) (Fin k) ℚ) (u : Fin m), u ∉ l →
      (l.foldl (fun lv i => lv.updateRow i (f i)) A) u = A u := by
  intro l
  induction l with
  | nil => intro A u _; rfl
  | cons a t ih =>
    intro A u hu
    rw [List.foldl_cons, ih _ u (fun ht => hu (List.mem_cons_of_mem a ht))]
    exact Matrix.updateRow_ne (fun he => hu (he ▸ List.mem_cons_self a t))

theorem foldl_updateRow_of_mem {m k : ℕ} (f : Fin m → Fin k → ℚ) :
    ∀ (l : List (Fin m)) (A : Matrix (Fin m) (Fin k) ℚ) (u : Fin m), l.Nodup → u ∈ l →
      (l.foldl (fun lv i => lv.updateRow i (f i)) A) u = f u := by
  intro l
  induction l with
  | nil => intro A u _ hu; exact absurd hu (List.not_mem_nil u)
  | cons a t ih =>
    intro A u hnd hu
    rw [List.foldl_cons]
    rcases List.mem_cons.mp hu with h | h
    · subst h
      rw [foldl_updateRow_of_not_mem f t _ u (List.nodup_cons.mp hnd).1]
      exact Matrix.updateRow_self
    · exact ih _ u (List.nodup_cons.mp hnd).2 h

/-- Row `u` of a user `als_step` is the solve against the Gram matrix and the
user's ratings row. -/
theorem als_step_user_apply {m n k : ℕ} (latent_vectors : Matrix (Fin m) (Fin k) ℚ)
    (fixed_vecs : Matrix (Fin n) (Fin k) ℚ) (ratings : Matrix (Fin m) (Fin n) ℚ)
    (_lambda : ℚ) (u : Fin m) :
    als_step_user latent_vectors fixed_vecs ratings _lambda u =
      alsSolve (fixed_vecs.transpose * fixed_vecs + _lambda • 1)
        (Matrix.vecMul (ratings u) fixed_vecs) := by
  unfold als_step_user
  exact foldl_updateRow_of_mem _ (List.finRange m) latent_vectors u
    (List.nodup_finRange m) (List.mem_finRange u)

/-- Row `i` of an item `als_step` is the solve against the Gram matrix and the
item's ratings column. -/
theorem als_step_item_apply {m n k : ℕ} (latent_vectors : Matrix (Fin n) (Fin k) ℚ)
    (fixed_vecs : Matrix (Fin m) (Fin k) ℚ) (ratings : Matrix (Fin m) (Fin n) ℚ)
    (_lambda : ℚ) (i : Fin n) :
    als_step_item latent_vectors fixed_vecs ratings _lambda i =
      alsSolve (fixed_vecs.transpose * fixed_vecs + _lambda • 1)
        (Matrix.vecMul (fun u => ratings u i) fixed_vecs) := by
  unfold als_step_item
  exact foldl_updateRow_of_mem _ (List.finRange n) latent_vectors i
    (List.nodup_finRange n) (List.mem_finRange i)

/-- C1: for `type='user'`, with `G = fixedᵗ·fixed` and `lambdaI` the scaled
identity, every row `u` of the matrix returned by `als_step` is the (unique)
solution `x` of `(G + lambdaI) x = ratings[u,:]·fixed`; for `type='item'`,
symmetrically, every row `i` solves `(G + lambdaI) x = ratings[:,i]ᵗ·fixed`.
The nonsingularity hypotheses are the condition under which
`numpy.linalg.solve` returns. -/
theorem als_step_rows_solve_regularized_system {m n k : ℕ}
    (latentU : Matrix (Fin m) (Fin k) ℚ) (latentI : Matrix (Fin n) (Fin k) ℚ)
    (fixedU : Matrix (Fin n) (Fin k) ℚ) (fixedI : Matrix (Fin m) (Fin k) ℚ)
    (ratings : Matrix (Fin m) (Fin n) ℚ) (_lambda : ℚ)
    (hU : IsUnit (fixedU.transpose * fixedU + _lambda • (1 : Matrix (Fin k) (Fin k) ℚ)).det)
    (hI : IsUnit (fixedI.transpose * fixedI + _lambda • (1 : Matrix (Fin k) (Fin k) ℚ)).det) :
    (∀ (u : Fin m) (x : Fin k → ℚ),
        (fixedU.transpose * fixedU + _lambda • 1).mulVec x = Matrix.vecMul (ratings u) fixedU ↔
          x = als_step_user latentU fixedU ratings _lambda u)
    ∧ (∀ (i : Fin n) (x : Fin k → ℚ),
        (fixedI.transpose * fixedI + _lambda • 1).mulVec x =
            Matrix.vecMul (fun u => ratings u i) fixedI ↔
          x = als_step_item latentI fixedI ratings _lambda i) := by
  constructor
  · intro u x
    rw [als_step_user_apply]
    exact alsSolve_unique _ hU _ x
  · intro i x
    rw [als_step_item_apply]
    exact alsSolve_unique _ hI _ x

theorem detW1 : (fixedW1.transpose * fixedW1 + (1 : ℚ) • (1 : Matrix (Fin 1) (Fin 1) ℚ)).det = 2 := by
  rw [Matrix.det_fin_one]
  simp [fixedW1, Matrix.mul_apply, Matrix.one_apply, Matrix.add_apply, Matrix.smul_apply,
    Matrix.transpose_apply]
  norm_num

/-- Witness for C1 at a concrete 1-factor instance. -/
theorem als_step_rows_solve_regularized_system_witness :
    (fixedW1.transpose * fixedW1 + (1 : ℚ) • 1).mulVec
        (als_step_user latentW1 fixedW1 ratingsW1 1 0) =
      Matrix.vecMul (ratingsW1 0) fixedW1 :=
  ((als_step_rows_solve_regularized_system latentW1 latentW1 fixedW1 fixedW1 ratingsW1 1
      (detW1 ▸ isUnit_iff_ne_zero.mpr (by decide))
      (detW1 ▸ isUnit_iff_ne_zero.mpr (by decide))).1 0
    (als_step_user latentW1 fixedW1 ratingsW1 1 0)).mpr rfl

/-- C4: `predict(user, item)` returns exactly `get_predictions()[user, item]`,
the dot product of user-factor row `user` with item-factor row `item`. -/
theorem predict_eq_get_predictions_entry {m n k : ℕ} (user_vecs : Matrix (Fin m) (Fin k) ℚ)
    (item_vecs : Matrix (Fin n) (Fin k) ℚ) (user : Fin m) (item : Fin n) :
    get_predictions user_vecs item_vecs user item = predict user_vecs item_vecs user item := by
  unfold get_predictions predict
  rw [Matrix.mul_apply]
  simp [Matrix.transpose_apply]

/-- C2: the training loop performs exactly `n_iter` alternating rounds in
sequence (the iteration count is the only stopping criterion), and each round
first updates the user factors against the fixed item factors, then updates
the item factors against the *just-updated* user factors. -/
theorem als_train_loop_iterates_alternating_rounds {m n k : ℕ}
    (train_data : Matrix (Fin m) (Fin n) ℚ) (_lambda : ℚ) (n_iter : ℕ)
    (user_vecs : Matrix (Fin m) (Fin k) ℚ) (item_vecs : Matrix (Fin n) (Fin k) ℚ) :
    als_train_loop train_data _lambda n_iter user_vecs item_vecs =
        (alsAlternatingRound train_data _lambda)^[n_iter] (user_vecs, item_vecs)
    ∧ ∀ p : Matrix (Fin m) (Fin k) ℚ × Matrix (Fin n) (Fin k) ℚ,
        alsAlternatingRound train_data _lambda p =
          (als_step_user p.1 p.2 train_data _lambda,
            als_step_item p.2 (als_step_user p.1 p.2 train_data _lambda) train_data _lambda) := by
  refine ⟨?_, fun p => rfl⟩
  induction n_iter with
  | zero => rfl
  | succ t ih =>
    show (List.range' 1 (t + 1)).foldl _ _ = _
    rw [List.range'_concat, List.foldl_append, Function.iterate_succ_apply', ← ih]
    rfl

/-- Auxiliary for C10 (user branch): pushing the row loop through the state
shows that it only ever writes the `latent_vectors` component. -/
theorem als_step_state_fold_user {m n k : ℕ} (A : Matrix (Fin k) (Fin k) ℚ) :
    ∀ (l : List (Fin m)) (st : AlsVars m n m n k),
      (l.foldl
        (fun st u =>
          let row := alsSolve A (Matrix.vecMul (st.ratings u) st.fixed_vecs)
          { st with latent_vectors := st.latent_vectors.updateRow u row })
        st) =
      { st with latent_vectors := l.foldl (fun lv u => lv.updateRow u (alsSolve A (Matrix.vecMul (st.ratings u) st.fixed_vecs))) st.latent_vectors } := by
  intro l
  induction l with
  | nil => intro st; rfl
  | cons a t ih =>
    intro st
    rw [List.foldl_cons, ih]
    rfl

/-- Auxiliary for C10 (item branch). -/
theorem als_step_state_fold_item {m n k : ℕ} (A : Matrix (Fin k) (Fin k) ℚ) :
    ∀ (l : List (Fin n)) (st : AlsVars n m m n k),
      (l.foldl
        (fun st i =>
          let row := alsSolve A (Matrix.vecMul (fun u => st.ratings u i) st.fixed_vecs)
          { st with latent_vectors := st.latent_vectors.updateRow i row })
        st) =
      { st with latent_vectors := l.foldl (fun lv i => lv.updateRow i (alsSolve A (Matrix.vecMul (fun u => st.ratings u i) st.fixed_vecs))) st.latent_vectors } := by
  intro l
  induction l with
  | nil => intro st; rfl
  | cons a t ih =>
    intro st
    rw [List.foldl_cons, ih]
    rfl

/-- C10: a call to `als_step` writes only the `latent_vectors` array —
`fixed_vecs` and `ratings` are untouched — and the object it returns is the
`latent_vectors` argument itself (updated in place to the value computed by
the pure `als_step`), not a fresh array.  Both the user and the item branch
are covered. -/
theorem als_step_state_frame {m n k : ℕ} (sU : AlsVars m n m n k) (sI : AlsVars n m m n k)
    (_lambda : ℚ) :
    als_step_user_state sU _lambda =
        ({ sU with latent_vectors :=
            als_step_user sU.latent_vectors sU.fixed_vecs sU.ratings _lambda },
          AlsReturnedObject.latent_vectors)
    ∧ als_step_item_state sI _lambda =
        ({ sI with latent_vectors :=
            als_step_item sI.latent_vectors sI.fixed_vecs sI.ratings _lambda },
          AlsReturnedObject.latent_vectors) := by
  constructor
  · show ((List.finRange m).foldl _ sU, AlsReturnedObject.latent_vectors) = _
    rw [als_step_state_fold_user
      (sU.fixed_vecs.transpose * sU.fixed_vecs + _lambda • (1 : Matrix (Fin k) (Fin k) ℚ))
      (List.finRange m) sU]
    rfl
  · show ((List.finRange n).foldl _ sI, AlsReturnedObject.latent_vectors) = _
    rw [als_step_state_fold_item
      (sI.fixed_vecs.transpose * sI.fixed_vecs + _lambda • (1 : Matrix (Fin k) (Fin k) ℚ))
      (List.finRange n) sI]
    rfl

/-! ### Lemmas about the splitter embedding -/

theorem pyInt_nonneg {q : ℚ} (h : 0 ≤ q) : 0 ≤ pyInt q := by
  unfold pyInt
  rw [if_pos h]
  exact Int.floor_nonneg.mpr h

/-- Unfolding a successful `nsStep`. -/
theorem nsStep_eq_some {m n : ℕ} (ratings : Matrix (Fin m) (Fin n) ℚ) (tp : ℚ)
    (draw : Fin m → ℕ → ℕ) (acc acc' : SplitResult m n) (user : Fin m)
    (h : nsStep ratings tp draw acc user = some acc') :
    (npChoice (nonzeroIndices (ratings user))
        (pyInt (tp * ((nonzeroIndices (ratings user)).length : ℚ))) (draw user)).isSome
    ∧ acc'.train = acc.train.updateRow user
        (fun j => if j ∈ nsSelection ratings tp draw user then 0 else acc.train user j)
    ∧ acc'.test = acc.test.updateRow user
        (fun j => if j ∈ nsSelection ratings tp draw user then ratings user j else acc.test user j)
    ∧ acc'.test_indices = Function.update acc.test_indices user (nsSelection ratings tp draw user) := by
  simp only [nsStep] at h
  rcases hch : npChoice (nonzeroIndices (ratings user))
      (pyInt (tp * ((nonzeroIndices (ratings user)).length : ℚ))) (draw user) with _ | sel
  · rw [hch] at h
    exact absurd h (by simp)
  · rw [hch] at h
    have hsel : nsSelection ratings tp draw user = sel := by
      unfold nsSelection
      rw [hch]
      rfl
    have hacc : acc' = { train := acc.train.updateRow user (fun j => if j ∈ sel then 0 else acc.train user j),
                         test := acc.test.updateRow user (fun j => if j ∈ sel then ratings user j else acc.test user j),
                         test_indices := Function.update acc.test_indices user sel } :=
      (Option.some.inj h).symm
    subst hacc
    rw [hsel]
    exact ⟨rfl, rfl, rfl, rfl⟩

/-- Row-level characterization of the user fold inside `naive_split`. -/
theorem nsFold_char {m n : ℕ} (ratings : Matrix (Fin m) (Fin n) ℚ) (tp : ℚ)
    (draw : Fin m → ℕ → ℕ) :
    ∀ (l : List (Fin m)), l.Nodup → ∀ (acc res : SplitResult m n),
      List.foldlM (nsStep ratings tp draw) acc l = some res → ∀ u : Fin m,
      (u ∉ l → res.train u = acc.train u ∧ res.test u = acc.test u
          ∧ res.test_indices u = acc.test_indices u)
      ∧ (u ∈ l →
          (npChoice (nonzeroIndices (ratings u))
              (pyInt (tp * ((nonzeroIndices (ratings u)).length : ℚ))) (draw u)).isSome
          ∧ res.train u = (fun j => if j ∈ nsSelection ratings tp draw u then 0 else acc.train u j)
          ∧ res.test u = (fun j => if j ∈ nsSelection ratings tp draw u then ratings u j else acc.test u j)
          ∧ res.test_indices u = nsSelection ratings tp draw u) := by
  intro l
  induction l with
  | nil =>
    intro _ acc res h u
    have hacc : acc = res := by simpa using h
    subst hacc
    exact ⟨fun _ => ⟨rfl, rfl, rfl⟩, fun hu => absurd hu (List.not_mem_nil u)⟩
  | cons a t ih =>
    intro hnd acc res h u
    rw [List.foldlM_cons] at h
    rcases Option.bind_eq_some.mp h with ⟨acc1, hstep, hrest⟩
    obtain ⟨hch, htr1, hte1, hti1⟩ := nsStep_eq_some ratings tp draw acc acc1 a hstep
    have hih := ih (List.nodup_cons.mp hnd).2 acc1 res hrest
    constructor
    · intro hu
      have hua : u ≠ a := fun he => hu (he ▸ List.mem_cons_self a t)
      have hut : u ∉ t := fun ht => hu (List.mem_cons_of_mem a ht)
      obtain ⟨h1, h2, h3⟩ := (hih u).1 hut
      refine ⟨?_, ?_, ?_⟩
      · rw [h1, htr1]; exact Matrix.updateRow_ne hua
      · rw [h2, hte1]; exact Matrix.updateRow_ne hua
      · rw [h3, hti1]; exact Function.update_noteq hua _ _
    · intro hu
      rcases List.mem_cons.mp hu with he | hut
      · subst he
        have hut : u ∉ t := (List.nodup_cons.mp hnd).1
        obtain ⟨h1, h2, h3⟩ := (hih u).1 hut
        refine ⟨hch, ?_, ?_, ?_⟩
        · rw [h1, htr1, Matrix.updateRow_self]
        · rw [h2, hte1, Matrix.updateRow_self]
        · rw [h3, hti1, Function.update_same]
      · have hua : u ≠ a := fun he => (List.nodup_cons.mp hnd).1 (he ▸ hut)
        obtain ⟨hsome, h1, h2, h3⟩ := (hih u).2 hut
        refine ⟨hsome, ?_, ?_, ?_⟩
        · rw [h1, htr1]
          funext j
          rw [Matrix.updateRow_ne hua]
        · rw [h2, hte1]
          funext j
          rw [Matrix.updateRow_ne hua]
        · exact h3

theorem npChoice_total_of_nonneg {α : Type} (pop : List α) (size : ℤ) (draw : ℕ → ℕ)
    (h1 : 0 ≤ size) (h2 : pop.length = 0 → size = 0) : (npChoice pop size draw).isSome := by
  unfold npChoice
  split_ifs with hneg hp hz
  · exact absurd hneg (not_lt.mpr h1)
  · rfl
  · exact absurd (h2 hp) hz
  · rfl

/-- With a nonnegative test fraction (the code always uses `0.2`), the user
fold of `naive_split` never fails. -/
theorem nsFold_total {m n : ℕ} (ratings : Matrix (Fin m) (Fin n) ℚ) (tp : ℚ)
    (draw : Fin m → ℕ → ℕ) (htp : 0 ≤ tp) :
    ∀ (l : List (Fin m)) (acc : SplitResult m n),
      ∃ res, List.foldlM (nsStep ratings tp draw) acc l = some res := by
  intro l
  induction l with
  | nil => intro acc; exact ⟨acc, rfl⟩
  | cons a t ih =>
    intro acc
    rw [List.foldlM_cons]
    have hsome : (npChoice (nonzeroIndices (ratings a))
        (pyInt (tp * ((nonzeroIndices (ratings a)).length : ℚ))) (draw a)).isSome := by
      apply npChoice_total_of_nonneg
      · exact pyInt_nonneg (mul_nonneg htp (Nat.cast_nonneg _))
      · intro hlen
        rw [hlen]
        norm_num [pyInt]
    rcases Option.isSome_iff_exists.mp hsome with ⟨sel, hch⟩
    simp only [nsStep]
    rw [hch]
    exact ih _

theorem npChoice_sound {α : Type} (pop : List α) (size : ℤ) (draw : ℕ → ℕ) (sel : List α)
    (h : npChoice pop size draw = some sel) :
    sel.length = size.toNat ∧ ∀ x ∈ sel, x ∈ pop := by
  unfold npChoice at h
  split_ifs at h with hneg hp hz
  · obtain rfl : sel = [] := (Option.some.inj h).symm
    subst hz
    exact ⟨rfl, by simp⟩
  · obtain rfl : sel = _ := (Option.some.inj h).symm
    constructor
    · simp
    · intro x hx
      rcases List.mem_map.mp hx with ⟨t, _, rfl⟩
      exact List.get_mem pop _ _

/-- C3: after `naive_split` returns `(train, test)`, every entry of the
elementwise product of the train and the test matrix is zero: no (user, item)
entry is non-zero in both. -/
theorem naive_split_train_test_product_zero {m n : ℕ} (ratings : Matrix (Fin m) (Fin n) ℚ)
    (tp : ℚ) (draw : Fin m → ℕ → ℕ) (res : SplitResult m n)
    (h : naive_split ratings tp draw = some res) (u : Fin m) (j : Fin n) :
    res.train u j * res.test u j = 0 := by
  obtain ⟨-, htr, hte, -⟩ := ((nsFold_char ratings tp draw (List.finRange m)
      (List.nodup_finRange m) ⟨ratings, fun _ _ => 0, fun _ => []⟩ res h u).2
      (List.mem_finRange u))
  simp only [htr, hte]
  by_cases hj : j ∈ nsSelection ratings tp draw u
  · rw [if_pos hj, if_pos hj, zero_mul]
  · rw [if_neg hj, if_neg hj, mul_zero]

unseal Rat.mul Rat.inv Rat.add Rat.sub in
/-- Witness for C3 on a concrete split. -/
theorem naive_split_train_test_product_zero_witness :
    resW3.train 0 0 * resW3.test 0 0 = 0 :=
  naive_split_train_test_product_zero RW (1/5) drawW resW3 (Option.some_get (by decide)).symm 0 0

/-- C9: a user whose ratings row is all zero never makes `naive_split` raise:
the split succeeds (for any nonnegative test fraction − the code always uses
`0.2`), that user's selection is empty, their train row equals the ratings row
and their test row stays all zero. -/
theorem naive_split_zero_rated_user_safe {m n : ℕ} (ratings : Matrix (Fin m) (Fin n) ℚ)
    (tp : ℚ) (draw : Fin m → ℕ → ℕ) (htp : 0 ≤ tp) (u : Fin m)
    (hrow : ∀ j, ratings u j = 0) :
    ∃ res, naive_split ratings tp draw = some res
      ∧ res.test_indices u = []
      ∧ (∀ j, res.train u j = ratings u j)
      ∧ (∀ j, res.test u j = 0) := by
  obtain ⟨res, hres⟩ := nsFold_total ratings tp draw htp (List.finRange m)
    ⟨ratings, fun _ _ => 0, fun _ => []⟩
  have hnz : nonzeroIndices (ratings u) = [] := by
    simp [nonzeroIndices, List.filter_eq_nil_iff, hrow]
  have hsel : nsSelection ratings tp draw u = [] := by
    unfold nsSelection
    rw [hnz]
    norm_num [npChoice, pyInt]
  obtain ⟨-, htr, hte, hti⟩ := ((nsFold_char ratings tp draw (List.finRange m)
      (List.nodup_finRange m) ⟨ratings, fun _ _ => 0, fun _ => []⟩ res hres u).2
      (List.mem_finRange u))
  refine ⟨res, hres, ?_, ?_, ?_⟩
  · rw [hti, hsel]
  · intro j
    simp only [htr, hsel]
    simp
  · intro j
    simp only [hte, hsel]
    simp

unseal Rat.mul Rat.inv Rat.add Rat.sub in
/-- Witness for C9 on a concrete all-zero user row. -/
theorem naive_split_zero_rated_user_safe_witness :
    ∃ res, naive_split RZ (1/5) drawW = some res
      ∧ res.test_indices 0 = []
      ∧ (∀ j, res.train 0 j = RZ 0 j)
      ∧ (∀ j, res.test 0 j = 0) :=
  naive_split_zero_rated_user_safe RZ (1/5) drawW (by decide) 0 (fun _ => rfl)

/-- C7 (amended): for each user row, `naive_split` makes exactly
`int(test_fraction · #nonzeros)` draws — truncation, not rounding — *with
replacement* from that user's non-zero item indices, so the drawn indices
need not be pairwise distinct; the entries at drawn indices are zeroed in the
train matrix and copied into the test matrix, and all other entries keep the
ratings value in the train matrix and are zero in the test matrix. -/
theorem naive_split_selection_characterization {m n : ℕ} (ratings : Matrix (Fin m) (Fin n) ℚ)
    (tp : ℚ) (draw : Fin m → ℕ → ℕ) (res : SplitResult m n)
    (h : naive_split ratings tp draw = some res) (u : Fin m) :
    (res.test_indices u).length = (pyInt (tp * ((nonzeroIndices (ratings u)).length : ℚ))).toNat
    ∧ (∀ x ∈ res.test_indices u, ratings u x ≠ 0)
    ∧ (∀ j ∈ res.test_indices u, res.train u j = 0 ∧ res.test u j = ratings u j)
    ∧ (∀ j : Fin n, j ∉ res.test_indices u → res.train u j = ratings u j ∧ res.test u j = 0) := by
  obtain ⟨hsome, htr, hte, hti⟩ := ((nsFold_char ratings tp draw (List.finRange m)
      (List.nodup_finRange m) ⟨ratings, fun _ _ => 0, fun _ => []⟩ res h u).2
      (List.mem_finRange u))
  rcases Option.isSome_iff_exists.mp hsome with ⟨sel, hch⟩
  have hsel : nsSelection ratings tp draw u = sel := by
    unfold nsSelection
    rw [hch]
    rfl
  obtain ⟨hlen, hmem⟩ := npChoice_sound _ _ _ sel hch
  refine ⟨?_, ?_, ?_, ?_⟩
  · rw [hti, hsel, hlen]
  · intro x hx
    have hx' : x ∈ sel := by rw [hti, hsel] at hx; exact hx
    have := List.mem_filter.mp (hmem x hx')
    exact of_decide_eq_true this.2
  · intro j hj
    have hj' : j ∈ nsSelection ratings tp draw u := by rw [hti] at hj; exact hj
    constructor
    · simp only [htr]
      rw [if_pos hj']
    · simp only [hte]
      rw [if_pos hj']
  · intro j hj
    have hj' : j ∉ nsSelection ratings tp draw u := by rw [hti] at hj; exact hj
    constructor
    · simp only [htr]
      rw [if_neg hj']
    · simp only [hte]
      rw [if_neg hj']

unseal Rat.mul Rat.inv Rat.add Rat.sub in
/-- Witness for the amended C7 on a concrete split (two draws with
replacement out of three rated items). -/
theorem naive_split_selection_characterization_witness :
    (resW7.test_indices 0).length = (pyInt ((2/3 : ℚ) * ((nonzeroIndices (RW 0)).length : ℚ))).toNat
    ∧ (∀ x ∈ resW7.test_indices 0, RW 0 x ≠ 0)
    ∧ (∀ j ∈ resW7.test_indices 0, resW7.train 0 j = 0 ∧ resW7.test 0 j = RW 0 j)
    ∧ (∀ j : Fin 3, j ∉ resW7.test_indices 0 → resW7.train 0 j = RW 0 j ∧ resW7.test 0 j = 0) :=
  naive_split_selection_characterization RW (2/3) drawW resW7 (Option.some_get (by decide)).symm 0

unseal Rat.mul Rat.inv Rat.add Rat.sub in
/-- C7 is false as stated.  With three rated items and `test_fraction = 1/5`
the claim demands `round(1/5 · 3) = 1` selected index, but the code truncates
(`int(1/5 · 3) = 0`) and selects none.  And with `test_fraction = 2/3`,
`numpy.random.choice` samples *with replacement*, so a legal run returns the
same index twice: the selection `[0, 0]` is not pairwise distinct. -/
theorem naive_split_round_distinct_counterexample :
    (naive_split RW (1/5) drawW).map (fun r => r.test_indices 0) = some []
    ∧ pyRound ((1/5 : ℚ) * ((nonzeroIndices (RW 0)).length : ℚ)) = 1
    ∧ (naive_split RW (2/3) drawW).map (fun r => r.test_indices 0) = some [0, 0] := by
  decide

/-! ### Lemmas about the k-fold index generator -/

theorem pyRound_nonneg {q : ℚ} (h : 0 ≤ q) : 0 ≤ pyRound q := by
  unfold pyRound
  split_ifs with h1 h2
  · exact Int.floor_nonneg.mpr h
  · have : 0 ≤ ⌊q⌋ := Int.floor_nonneg.mpr h
    omega
  · rw [round_eq]
    exact Int.floor_nonneg.mpr (by linarith)

theorem pyInt_mono {q q' : ℚ} (h : q ≤ q') : pyInt q ≤ pyInt q' := by
  unfold pyInt
  split_ifs with h1 h2 h2
  · exact Int.floor_mono h
  · exact absurd (le_trans h1 h) h2
  · have hq : q < 0 := lt_of_not_le h1
    have hL : 0 ≤ ⌊-q⌋ := Int.floor_nonneg.mpr (by linarith)
    have hR : 0 ≤ ⌊q'⌋ := Int.floor_nonneg.mpr h2
    omega
  · have : ⌊-q'⌋ ≤ ⌊-q⌋ := Int.floor_mono (by linarith)
    omega

/-- `size_of_test` is nonnegative. -/
theorem kfS_nonneg (k : ℕ) {n : ℕ} (rated : List (Fin n)) : 0 ≤ kfS k rated := by
  unfold kfS
  apply pyRound_nonneg
  have hk : (0 : ℚ) ≤ 1 / (k : ℚ) := by positivity
  exact mul_nonneg hk (Nat.cast_nonneg _)

theorem pySliceStart_le_length (L : ℕ) (a : ℤ) : pySliceStart L a ≤ L := by
  unfold pySliceStart
  split_ifs with h <;> omega

theorem pySliceStart_mono_of_nonneg (L : ℕ) {a b : ℤ} (ha : 0 ≤ a) (hab : a ≤ b) :
    pySliceStart L a ≤ pySliceStart L b := by
  unfold pySliceStart
  split_ifs with h1 h2 h2 <;> omega

theorem pySliceStart_of_nonneg_le (L : ℕ) {a : ℤ} (ha : 0 ≤ a) (haL : a ≤ (L : ℤ)) :
    (pySliceStart L a : ℤ) = a := by
  unfold pySliceStart
  rw [if_neg (not_lt.mpr ha)]
  omega

theorem pySlice_subset {α : Type} (l : List α) (a b : ℤ) : ∀ x ∈ pySlice l a b, x ∈ l := by
  intro x hx
  unfold pySlice at hx
  exact List.drop_subset _ l (List.take_subset _ _ hx)

/-- Two Python slices of a duplicate-free list are disjoint as soon as the
normalized stop of the first is at most the normalized start of the second. -/
theorem pySlice_disjoint {α : Type} (l : List α) (hl : l.Nodup) {a1 b1 a2 b2 : ℤ}
    (h : pySliceStart l.length b1 ≤ pySliceStart l.length a2) :
    List.Disjoint (pySlice l a1 b1) (pySlice l a2 b2) := by
  intro x hx1 hx2
  unfold pySlice at hx1 hx2
  by_cases hord : pySliceStart l.length b1 ≤ pySliceStart l.length a1
  · rw [Nat.sub_eq_zero_of_le hord] at hx1
    simp at hx1
  · have ha12 : pySliceStart l.length a1 ≤ pySliceStart l.length a2 :=
      le_trans (le_of_not_le hord) h
    have hx2' : x ∈ List.drop (pySliceStart l.length a2 - pySliceStart l.length a1)
        (List.drop (pySliceStart l.length a1) l) := by
      rw [List.drop_drop, Nat.add_sub_cancel' ha12]
      exact List.take_subset _ _ hx2
    exact List.disjoint_take_drop ((List.drop_sublist _ _).nodup hl)
      (show pySliceStart l.length b1 - pySliceStart l.length a1 ≤
        pySliceStart l.length a2 - pySliceStart l.length a1 by omega) hx1 hx2'

theorem pySlice_length_eq {α : Type} (l : List α) {a b : ℤ} (ha : 0 ≤ a) (hab : a ≤ b)
    (hb : b ≤ (l.length : ℤ)) : ((pySlice l a b).length : ℤ) = b - a := by
  unfold pySlice
  rw [List.length_take, List.length_drop]
  have h1 : (pySliceStart l.length a : ℤ) = a :=
    pySliceStart_of_nonneg_le _ ha (le_trans hab hb)
  have h2 : (pySliceStart l.length b : ℤ) = b :=
    pySliceStart_of_nonneg_le _ (le_trans ha hab) hb
  omega

theorem kfChunk_subset (k : ℕ) {n : ℕ} (rated : List (Fin n)) (s : ℤ) (i : ℕ) :
    ∀ x ∈ kfChunk k rated s i, x ∈ rated := by
  intro x hx
  unfold kfChunk at hx
  split_ifs at hx <;> exact pySlice_subset _ _ _ x hx

theorem kfAddition_subset (N k : ℕ) {n : ℕ} (rated nonRated : List (Fin n)) (s : ℤ) (i : ℕ) :
    ∀ x ∈ kfAddition N k rated nonRated s i, x ∈ nonRated := by
  intro x hx
  unfold kfAddition at hx
  split_ifs at hx <;> exact pySlice_subset _ _ _ x hx

/-- Executing the fold loop for the first `j` folds: the counter is
`j · size_of_test`, `prevAdd` is the last `num_to_add`, and the test sets are
given by the closed forms `kfChunk` and `kfAddition`. -/
theorem kfold_foldl_char (N k : ℕ) {n : ℕ} (rated nonRated : List (Fin n)) (s : ℤ) :
    ∀ j : ℕ,
      (List.range j).foldl (kfoldUserStep N k rated nonRated s) ⟨0, 0, []⟩ =
        ⟨(j : ℤ) * s, if j = 0 then 0 else kfCur N k rated s (j - 1),
          (List.range j).map (fun i => kfChunk k rated s i ++ kfAddition N k rated nonRated s i)⟩ := by
  intro j
  induction j with
  | zero => simp
  | succ t ih =>
    have hstep : kfoldUserStep N k rated nonRated s
        ⟨(t : ℤ) * s, if t = 0 then 0 else kfCur N k rated s (t - 1),
          (List.range t).map (fun i => kfChunk k rated s i ++ kfAddition N k rated nonRated s i)⟩ t =
        ⟨((t + 1 : ℕ) : ℤ) * s, kfCur N k rated s t,
          ((List.range t).map (fun i => kfChunk k rated s i ++ kfAddition N k rated nonRated s i))
            ++ [kfChunk k rated s t ++ kfAddition N k rated nonRated s t]⟩ := by
      by_cases ht : t = 0
      · subst ht
        simp only [kfoldUserStep, kfAddition, kfCur, kfChunk]
        norm_num
      · simp only [kfoldUserStep, kfAddition, kfCur, kfChunk, if_neg ht]
        rw [show ((t + 1 : ℕ) : ℤ) * s = (t : ℤ) * s + s by push_cast; ring]
    rw [List.range_succ, List.foldl_append, ih, List.foldl_cons, List.foldl_nil, hstep,
      List.map_append]
    simp only [Nat.add_sub_cancel, List.map_cons, List.map_nil]
    rw [if_neg (Nat.succ_ne_zero t)]

theorem kfoldUserTests_getD (N k : ℕ) {n : ℕ} (rated nonRated : List (Fin n)) (i : ℕ)
    (hi : i < k) :
    (kfoldUserTests N k rated nonRated).getD i [] =
      kfChunk k rated (kfS k rated) i ++ kfAddition N k rated nonRated (kfS k rated) i := by
  unfold kfoldUserTests
  rw [kfold_foldl_char]
  rw [List.getD_eq_getElem?_getD, List.getElem?_map, List.getElem?_range hi]
  rfl

theorem kfoldUserTests_length (N k : ℕ) {n : ℕ} (rated nonRated : List (Fin n)) :
    (kfoldUserTests N k rated nonRated).length = k := by
  unfold kfoldUserTests
  rw [kfold_foldl_char]
  simp

theorem flatMap_getD_of_lengths {α β : Type} (g : α → List β) (k : ℕ) (d : β) :
    ∀ (l : List α) (p i : ℕ) (a : α), l[p]? = some a → (∀ b ∈ l, (g b).length = k) → i < k →
      (l.flatMap g).getD (p * k + i) d = (g a).getD i d := by
  intro l
  induction l with
  | nil => intro p i a hp _ _; simp at hp
  | cons x t ih =>
    intro p i a hp hlen hi
    cases p with
    | zero =>
      have hax : x = a := by simpa using hp
      subst hax
      rw [List.flatMap_cons, List.getD_eq_getElem?_getD,
        List.getElem?_append_left (show 0 * k + i < (g x).length by
          rw [hlen x (List.mem_cons_self x t)]; omega)]
      rw [show 0 * k + i = i by omega, ← List.getD_eq_getElem?_getD]
    | succ p' =>
      have hp' : t[p']? = some a := by simpa using hp
      have hx : (g x).length = k := hlen x (List.mem_cons_self x t)
      have hmul : (p' + 1) * k = p' * k + k := by ring
      rw [List.flatMap_cons, List.getD_eq_getElem?_getD,
        List.getElem?_append_right (show (g x).length ≤ (p' + 1) * k + i by omega)]
      rw [hx, show (p' + 1) * k + i - k = p' * k + i by omega, ← List.getD_eq_getElem?_getD]
      exact ih p' i a hp' (fun b hb => hlen b (List.mem_cons_of_mem _ hb)) hi

/-- Entry `(u, i)` of the flattened output of `get_kfold_indices` is fold `i`
of user `u`. -/
theorem get_kfold_indices_getD {m n : ℕ} (ratings : Matrix (Fin m) (Fin n) ℚ) (k : ℕ)
    (sr sn : Fin m → List (Fin n) → List (Fin n)) (u : Fin m) (i : ℕ) (hi : i < k) :
    (get_kfold_indices ratings k sr sn).getD ((u : ℕ) * k + i) [] =
      (kfoldUserTests n k (sr u (nonzeroIndices (ratings u)))
        (sn u (nonRatedIndices (ratings u)))).getD i [] := by
  unfold get_kfold_indices
  refine flatMap_getD_of_lengths _ k [] (List.finRange m) (u : ℕ) i u ?_
    (fun b _ => kfoldUserTests_length _ _ _ _) hi
  rw [List.getElem?_eq_getElem (by simp [u.isLt])]
  simp [List.getElem_finRange, Fin.ext_iff]

/-- Length of a non-last chunk in terms of the clamped slice bounds. -/
theorem kfChunk_length_nonlast (k : ℕ) {n : ℕ} (rated : List (Fin n)) {s : ℤ} (hs : 0 ≤ s)
    (i : ℕ) (hi : i ≠ k - 1) :
    (kfChunk k rated s i).length =
      min ((i + 1) * s.toNat) rated.length - min (i * s.toNat) rated.length := by
  unfold kfChunk
  rw [if_neg hi]
  unfold pySlice
  rw [List.length_take, List.length_drop]
  have hc : ∀ j : ℕ, ((j : ℤ) * s).toNat = j * s.toNat := by
    intro j
    rcases Int.eq_ofNat_of_zero_le hs with ⟨c, rfl⟩
    have hjc : ((j : ℤ) * (c : ℤ)) = ((j * c : ℕ) : ℤ) := by push_cast; ring
    rw [hjc, Int.toNat_natCast, Int.toNat_natCast]
  have h1 : pySliceStart rated.length ((i : ℤ) * s) = min (i * s.toNat) rated.length := by
    unfold pySliceStart
    rw [if_neg (not_lt.mpr (by positivity)), hc]
  have h2 : pySliceStart rated.length ((i : ℤ) * s + s) = min ((i + 1) * s.toNat) rated.length := by
    unfold pySliceStart
    rw [if_neg (not_lt.mpr (by positivity)), show (i : ℤ) * s + s = ((i + 1 : ℕ) : ℤ) * s by
      push_cast; ring, hc]
  rw [h1, h2]
  omega

/-- `num_to_add` is monotone over the non-last folds (their chunks can only
shrink). -/
theorem kfCur_mono_nonlast (N k : ℕ) {n : ℕ} (rated : List (Fin n)) {s : ℤ} (hs : 0 ≤ s)
    (i j : ℕ) (hij : i ≤ j) (hi : i ≠ k - 1) (hj : j ≠ k - 1) :
    kfCur N k rated s i ≤ kfCur N k rated s j := by
  unfold kfCur
  apply pyInt_mono
  have hlen : (kfChunk k rated s j).length ≤ (kfChunk k rated s i).length := by
    rw [kfChunk_length_nonlast k rated hs i hi, kfChunk_length_nonlast k rated hs j hj]
    have h1 : i * s.toNat ≤ j * s.toNat := Nat.mul_le_mul_right _ hij
    have h2 : (i + 1) * s.toNat = i * s.toNat + s.toNat := by ring
    have h3 : (j + 1) * s.toNat = j * s.toNat + s.toNat := by ring
    omega
  have : ((kfChunk k rated s j).length : ℚ) ≤ ((kfChunk k rated s i).length : ℚ) := by
    exact_mod_cast hlen
  linarith

/-- Chunks of distinct folds are disjoint (for a duplicate-free rated list). -/
theorem kfChunk_disjoint {n : ℕ} (rated : List (Fin n)) (hnd : rated.Nodup) (k : ℕ) {s : ℤ}
    (hs : 0 ≤ s) (i j : ℕ) (hj : j < k) (hij : i < j) :
    List.Disjoint (kfChunk k rated s i) (kfChunk k rated s j) := by
  have hik : i ≠ k - 1 := by omega
  have hstart : pySliceStart rated.length ((i : ℤ) * s + s) ≤
      pySliceStart rated.length ((j : ℤ) * s) := by
    apply pySliceStart_mono_of_nonneg _ (by positivity)
    have : ((i : ℤ) + 1) * s ≤ (j : ℤ) * s := by
      apply mul_le_mul_of_nonneg_right _ hs
      exact_mod_cast hij
    linarith
  unfold kfChunk
  rw [if_neg hik]
  split_ifs with hjk
  · exact pySlice_disjoint rated hnd hstart
  · exact pySlice_disjoint rated hnd hstart

/-- C5: in the output of `get_kfold_indices`, for every user `u` and distinct
folds `i ≠ j`, the intersection of the two folds' test sets restricted to the
items `u` originally rated (non-zero in the ratings matrix) is empty: any
index in both test sets is an unrated item. -/
theorem kfold_test_sets_disjoint_on_rated {m n : ℕ} (ratings : Matrix (Fin m) (Fin n) ℚ)
    (k : ℕ) (sr sn : Fin m → List (Fin n) → List (Fin n))
    (hsr : ∀ u l, (sr u l).Perm l) (hsn : ∀ u l, (sn u l).Perm l)
    (u : Fin m) (i j : ℕ) (hi : i < k) (hj : j < k) (hij : i ≠ j) :
    (((get_kfold_indices ratings k sr sn).getD ((u : ℕ) * k + i) []).inter
        ((get_kfold_indices ratings k sr sn).getD ((u : ℕ) * k + j) [])).filter
      (fun x => decide (ratings u x ≠ 0)) = [] := by
  rw [List.filter_eq_nil_iff]
  intro x hx
  have hxi : x ∈ (get_kfold_indices ratings k sr sn).getD ((u : ℕ) * k + i) [] :=
    (List.mem_inter_iff.mp hx).1
  have hxj : x ∈ (get_kfold_indices ratings k sr sn).getD ((u : ℕ) * k + j) [] :=
    (List.mem_inter_iff.mp hx).2
  suffices h0 : ratings u x = 0 by simp [h0]
  rw [get_kfold_indices_getD ratings k sr sn u i hi,
    kfoldUserTests_getD n k _ _ i hi] at hxi
  rw [get_kfold_indices_getD ratings k sr sn u j hj,
    kfoldUserTests_getD n k _ _ j hj] at hxj
  have hzero : x ∈ sn u (nonRatedIndices (ratings u)) → ratings u x = 0 := by
    intro hx
    have hx' : x ∈ nonRatedIndices (ratings u) := ((hsn u _).mem_iff).mp hx
    exact of_decide_eq_true (List.mem_filter.mp hx').2
  rcases List.mem_append.mp hxi with hci | hai
  · rcases List.mem_append.mp hxj with hcj | haj
    · exfalso
      have hnd : (sr u (nonzeroIndices (ratings u))).Nodup :=
        ((hsr u _).nodup_iff).mpr ((List.nodup_finRange n).filter _)
      have hs := kfS_nonneg k (sr u (nonzeroIndices (ratings u)))
      rcases Nat.lt_or_ge i j with hlt | hge
      · exact kfChunk_disjoint _ hnd k hs i j hj hlt hci hcj
      · have hlt : j < i := lt_of_le_of_ne hge (fun he => hij he.symm)
        exact kfChunk_disjoint _ hnd k hs j i hi hlt hcj hci
    · exact hzero (kfAddition_subset _ _ _ _ _ _ x haj)
  · exact hzero (kfAddition_subset _ _ _ _ _ _ x hai)

unseal Rat.mul Rat.inv Rat.add Rat.sub in
/-- Witness for C5 on a concrete 8-item, 3-fold instance. -/
theorem kfold_test_sets_disjoint_on_rated_witness :
    (((get_kfold_indices R6 3 idShuffle idShuffle).getD (((0 : Fin 1) : ℕ) * 3 + 0) []).inter
        ((get_kfold_indices R6 3 idShuffle idShuffle).getD (((0 : Fin 1) : ℕ) * 3 + 1) [])).filter
      (fun x => decide (R6 0 x ≠ 0)) = [] :=
  kfold_test_sets_disjoint_on_rated R6 3 idShuffle idShuffle
    (fun _ l => List.Perm.refl l) (fun _ l => List.Perm.refl l) 0 0 1
    (by decide) (by decide) (by decide)

theorem kfAddition_eq_slice (N k : ℕ) {n : ℕ} (rated nonRated : List (Fin n)) (s : ℤ) (i : ℕ) :
    kfAddition N k rated nonRated s i =
      pySlice nonRated (kfAddStart N k rated s i) (kfAddStop N k rated s i) := by
  unfold kfAddition kfAddStop kfAddStart
  split_ifs with h
  · congr 1
    ring
  · congr 1
    ring

theorem kfAddStart_succ (N k : ℕ) {n : ℕ} (rated : List (Fin n)) (s : ℤ) (i : ℕ) :
    kfAddStart N k rated s (i + 1) = ((i + 1 : ℕ) : ℤ) * kfCur N k rated s i := by
  unfold kfAddStart
  rw [Nat.add_sub_cancel]
  split_ifs with h
  · rfl
  · push_neg at h
    rw [h (Nat.succ_pos i)]

theorem kfAddStart_nonneg (N k : ℕ) {n : ℕ} (rated : List (Fin n)) (s : ℤ)
    (hcur : ∀ i, i < k → 0 ≤ kfCur N k rated s i) (i : ℕ) (hi : i < k) :
    0 ≤ kfAddStart N k rated s i := by
  unfold kfAddStart
  split_ifs with h
  · exact mul_nonneg (Int.natCast_nonneg i) (hcur (i - 1) (by omega))
  · exact mul_nonneg (Int.natCast_nonneg i) (hcur i hi)

theorem kfAddStop_le_pool (N k : ℕ) {n : ℕ} (rated : List (Fin n)) (s : ℤ) (M : ℕ)
    (hM : ∀ i, i < k → kfCur N k rated s i ≤ (M : ℤ))
    (L : ℕ) (hpool : k * M ≤ L) (i : ℕ) (hi : i < k) :
    kfAddStop N k rated s i ≤ (L : ℤ) := by
  have hiM : (i : ℤ) + 1 ≤ (k : ℤ) := by exact_mod_cast hi
  have hLk : ((k : ℤ)) * (M : ℤ) ≤ (L : ℤ) := by exact_mod_cast hpool
  have hkM : ((i : ℤ) + 1) * (M : ℤ) ≤ ((k : ℤ)) * (M : ℤ) :=
    mul_le_mul_of_nonneg_right hiM (Int.natCast_nonneg M)
  unfold kfAddStop kfAddStart
  split_ifs with h
  · have h1 : kfCur N k rated s (i - 1) ≤ (M : ℤ) := hM (i - 1) (by omega)
    have h2 : kfCur N k rated s i ≤ (M : ℤ) := hM i hi
    have h3 : (i : ℤ) * kfCur N k rated s (i - 1) ≤ (i : ℤ) * (M : ℤ) :=
      mul_le_mul_of_nonneg_left h1 (Int.natCast_nonneg i)
    linarith
  · have h2 : kfCur N k rated s i ≤ (M : ℤ) := hM i hi
    have h3 : (i : ℤ) * kfCur N k rated s i ≤ (i : ℤ) * (M : ℤ) :=
      mul_le_mul_of_nonneg_left h2 (Int.natCast_nonneg i)
    linarith

theorem kfAddStop_le_start_succ (N k : ℕ) {n : ℕ} (rated : List (Fin n)) {s : ℤ} (hs : 0 ≤ s)
    (i : ℕ) (hik : i + 1 < k) :
    kfAddStop N k rated s i ≤ kfAddStart N k rated s (i + 1) := by
  rw [kfAddStart_succ]
  have hexp : ((i + 1 : ℕ) : ℤ) * kfCur N k rated s i =
      (i : ℤ) * kfCur N k rated s i + kfCur N k rated s i := by
    push_cast
    ring
  unfold kfAddStop kfAddStart
  split_ifs with h
  · have hmono : kfCur N k rated s (i - 1) ≤ kfCur N k rated s i :=
      kfCur_mono_nonlast N k rated hs (i - 1) i (by omega) (by omega) (by omega)
    have hmul : (i : ℤ) * kfCur N k rated s (i - 1) ≤ (i : ℤ) * kfCur N k rated s i :=
      mul_le_mul_of_nonneg_left hmono (Int.natCast_nonneg i)
    linarith
  · linarith

theorem kfAddStop_le_start (N k : ℕ) {n : ℕ} (rated : List (Fin n)) {s : ℤ} (hs : 0 ≤ s)
    (hcur : ∀ i, i < k → 0 ≤ kfCur N k rated s i) :
    ∀ i j, i < j → j < k → kfAddStop N k rated s i ≤ kfAddStart N k rated s j := by
  intro i j
  induction j with
  | zero => intro h1 _; omega
  | succ t ih =>
    intro h1 h2
    rcases Nat.lt_or_ge i t with hlt | hge
    · have h3 := ih hlt (by omega)
      have h4 : kfAddStart N k rated s t ≤ kfAddStop N k rated s t := by
        have := hcur t (by omega)
        unfold kfAddStop
        linarith
      have h5 := kfAddStop_le_start_succ N k rated hs t h2
      linarith
    · have hit : i = t := by omega
      subst hit
      exact kfAddStop_le_start_succ N k rated hs i h2

/-- C6 (amended): in `get_kfold_indices`, for a user whose per-fold
`num_to_add` values are all nonnegative and whose unrated pool is large
enough, fold `i`'s test set is its chunk of rated indices followed by exactly
`int(n_items/k_folds − |chunk_i|)` unrated padding indices — the count the
code computes by truncation, not `round(n_items/k_folds) − |chunk_i|` — and
no unrated index is appended to two different folds' test sets for that
user. -/
theorem kfold_padding_count_and_no_reuse {m n : ℕ} (ratings : Matrix (Fin m) (Fin n) ℚ)
    (k : ℕ) (sr sn : Fin m → List (Fin n) → List (Fin n)) (u : Fin m)
    (rated nonRated : List (Fin n)) (s : ℤ) (M : ℕ)
    (hrated : rated = sr u (nonzeroIndices (ratings u)))
    (hnonRated : nonRated = sn u (nonRatedIndices (ratings u)))
    (hnd : nonRated.Nodup)
    (hs : s = kfS k rated)
    (hcur : ∀ i, i < k → 0 ≤ kfCur n k rated s i)
    (hM : ∀ i, i < k → kfCur n k rated s i ≤ (M : ℤ))
    (hpool : k * M ≤ nonRated.length) :
    (∀ i, i < k →
        (get_kfold_indices ratings k sr sn).getD ((u : ℕ) * k + i) [] =
          kfChunk k rated s i ++ kfAddition n k rated nonRated s i)
    ∧ (∀ i, i < k → ((kfAddition n k rated nonRated s i).length : ℤ) = kfCur n k rated s i)
    ∧ (∀ i j, i < k → j < k → i ≠ j →
        ∀ x, x ∈ kfAddition n k rated nonRated s i → x ∉ kfAddition n k rated nonRated s j) := by
  have hs0 : 0 ≤ s := by rw [hs]; exact kfS_nonneg k rated
  have hstart0 : ∀ i, i < k → 0 ≤ kfAddStart n k rated s i :=
    kfAddStart_nonneg n k rated s hcur
  have hstop : ∀ i, i < k → kfAddStop n k rated s i ≤ (nonRated.length : ℤ) :=
    kfAddStop_le_pool n k rated s M hM nonRated.length hpool
  have hdisj : ∀ i j, i < j → j < k →
      List.Disjoint (kfAddition n k rated nonRated s i) (kfAddition n k rated nonRated s j) := by
    intro i j hij hj
    rw [kfAddition_eq_slice, kfAddition_eq_slice]
    apply pySlice_disjoint nonRated hnd
    apply pySliceStart_mono_of_nonneg
    · have h1 := hstart0 i (by omega)
      have h2 := hcur i (by omega)
      unfold kfAddStop
      linarith
    · exact kfAddStop_le_start n k rated hs0 hcur i j hij hj
  refine ⟨?_, ?_, ?_⟩
  · intro i hi
    rw [get_kfold_indices_getD ratings k sr sn u i hi, ← hrated, ← hnonRated,
      kfoldUserTests_getD n k rated nonRated i hi, ← hs]
  · intro i hi
    rw [kfAddition_eq_slice]
    rw [pySlice_length_eq nonRated (hstart0 i hi)
      (by have := hcur i hi; unfold kfAddStop; linarith) (hstop i hi)]
    unfold kfAddStop
    ring
  · intro i j hi hj hij x hxi hxj
    rcases Nat.lt_or_ge i j with hlt | hge
    · exact hdisj i j hlt hj hxi hxj
    · have hlt : j < i := lt_of_le_of_ne hge (fun he => hij he.symm)
      exact hdisj j i hlt hi hxj hxi

unseal Rat.mul Rat.inv Rat.add Rat.sub in
/-- Witness for the amended C6 on a concrete 4-item, 2-fold instance. -/
theorem kfold_padding_count_and_no_reuse_witness :
    (∀ i, i < 2 →
        (get_kfold_indices R4 2 idShuffle idShuffle).getD (((0 : Fin 1) : ℕ) * 2 + i) [] =
          kfChunk 2 ([0, 1] : List (Fin 4)) 1 i ++ kfAddition 4 2 ([0, 1] : List (Fin 4)) ([2, 3] : List (Fin 4)) 1 i)
    ∧ (∀ i, i < 2 → ((kfAddition 4 2 ([0, 1] : List (Fin 4)) ([2, 3] : List (Fin 4)) 1 i).length : ℤ) = kfCur 4 2 ([0, 1] : List (Fin 4)) 1 i)
    ∧ (∀ i j, i < 2 → j < 2 → i ≠ j →
        ∀ x, x ∈ kfAddition 4 2 ([0, 1] : List (Fin 4)) ([2, 3] : List (Fin 4)) 1 i → x ∉ kfAddition 4 2 ([0, 1] : List (Fin 4)) ([2, 3] : List (Fin 4)) 1 j) :=
  kfold_padding_count_and_no_reuse R4 2 idShuffle idShuffle 0 ([0, 1] : List (Fin 4)) ([2, 3] : List (Fin 4)) 1 1
    (by decide) (by decide) (by decide) (by decide) (by decide) (by decide) (by decide)

unseal Rat.mul Rat.inv Rat.add Rat.sub in
/-- C6 is false as stated.  On an 8-item matrix with 3 folds and a user who
rated items 0, 1, 2, fold 0's test set is `[0, 3]`: its chunk of rated
indices is `[0]` and exactly *one* unrated index (3) is appended, while the
claim's formula demands `round(8/3) − 1 = 2` padding indices (the code
truncates `int(8/3 − 1) = 1` instead). -/
theorem kfold_padding_count_counterexample :
    (get_kfold_indices R6 3 idShuffle idShuffle).getD 0 [] = [0, 3]
    ∧ R6 0 0 ≠ 0 ∧ R6 0 3 = 0
    ∧ pyRound ((8 : ℚ) / 3) - 1 = 2 := by
  decide

/-! ### Configuration (C8) -/

/-- C8 (amended): constructing the solver with a hyperparameters dictionary
missing `n_factors` or `_lambda` raises a `KeyError` at construction time
(fails fast, before any training); but an options dictionary missing
`n_iterations` does *not* raise at construction — `set_options` silently
skips the assignment and leaves the iteration count unset (the failure would
only surface later, at training time). -/
theorem cf_construct_key_requirements (hyperparameters options : List (String × ℚ)) :
    ((hyperparameters.lookup "n_factors" = none ∨ hyperparameters.lookup "_lambda" = none) →
      cf_construct hyperparameters options = none)
    ∧ (∀ a b : ℚ, hyperparameters.lookup "n_factors" = some a →
        hyperparameters.lookup "_lambda" = some b →
        cf_construct hyperparameters options =
          some { n_factors := a, _lambda := b, opts := set_options options none }) := by
  constructor
  · rintro (h | h)
    · unfold cf_construct set_hyperparameters
      rw [h]
      rfl
    · unfold cf_construct set_hyperparameters
      rcases hnf : hyperparameters.lookup "n_factors" with _ | a
      · rfl
      · rw [h]
        rfl
  · intro a b ha hb
    unfold cf_construct set_hyperparameters
    rw [ha, hb]
    rfl

unseal Rat.mul Rat.inv Rat.add Rat.sub in
/-- Witness for the amended C8: missing `n_factors` raises, while a complete
hyperparameters dictionary with an options dictionary missing `n_iterations`
constructs successfully (with the iteration count unset). -/
theorem cf_construct_key_requirements_witness :
    cf_construct [] [] = none
    ∧ cf_construct [("n_factors", 3), ("_lambda", 1/10)] [] =
        some { n_factors := 3, _lambda := 1/10,
               opts := set_options [] none } :=
  ⟨(cf_construct_key_requirements [] []).1 (Or.inl rfl),
   (cf_construct_key_requirements [("n_factors", 3), ("_lambda", 1/10)] []).2 3 (1/10)
     (by decide) (by decide)⟩

unseal Rat.mul Rat.inv Rat.add Rat.sub in
/-- C8 is false as stated: constructing with complete hyperparameters but an
options dictionary that lacks `n_iterations` (here it only has `k_folds`)
raises no error at construction; the configuration is produced with the
iteration count left unset. -/
theorem cf_construct_missing_n_iterations_counterexample :
    cf_construct [("n_factors", 3), ("_lambda", 1/10)] [("k_folds", 5)] =
      some { n_factors := 3, _lambda := 1/10,
             opts := { n_iter := none, k_folds := 5 } } := by
  decide
